import Mathlib

/-!
# Verification of the sjson raw-path JSON mutation engine

This file is a shallow embedding, in Lean 4, of the sjson library
(`sjson.go`): the dotted-path parser, the JSON-fragment builder, the
recursive splice engine behind `Set` / `SetRaw` / `SetBytes` /
`SetRawBytes`, and the value-coercion switch of `SetBytes`.

Go byte strings are modelled as `List Char` where every `Char` stands for
one byte (all concrete inputs below are ASCII, where the two coincide;
the engine itself only ever compares and appends individual bytes).
Buffers (`[]byte`) are modelled the same way, and `append` becomes `++`.
Go's multiple return values `(T, error)` become `Except String T` when the
caller propagates the error, and explicit pairs when the caller does not
(`SetBytes` is modelled with an explicit pair precisely because its
`default:` branch drops an error through variable shadowing).

The external collaborators — the gjson lookup library and Go's
`encoding/json` string encoder — are out of scope of the repository
(the spec treats them as black boxes returning a byte range / canonical
JSON text); they are modelled here by executable functions that follow
their documented behaviour, and every theorem that depends on a specific
lookup outcome states that outcome as an explicit hypothesis discharged
at a concrete witness.
-/

namespace SJson

/-- A Go byte string: a list of byte-valued characters. -/
abbrev Str := List Char

/-- Converts a Lean string literal to the byte-list model. -/
def s2l (s : String) : Str := s.data

/-- Embeds `type pathResult struct` of sjson.go: one parsed path segment.
`part` is the (unescaped) key, `path` the remaining path, `force` the
forced-string-key marker from a leading `:`, `more` whether further
segments follow. -/
structure PathResult where
  part : Str
  path : Str
  force : Bool
  more : Bool
deriving DecidableEq, Repr

/-- The escape-mode loop of `parsePath` (sjson.go lines 50-76): after a
backslash has been seen, bytes are accumulated into `epart`; `\x` yields
the literal `x`; an unescaped `.` ends the segment; unescaped `*` `?` `#`
are errors. -/
def parseEsc (force : Bool) (epart : Str) : Str → Except String PathResult
  | [] => .ok { part := epart, path := [], force := force, more := false }
  | c :: rest =>
    if c = '\\' then
      match rest with
      | [] => .ok { part := epart, path := [], force := force, more := false }
      | d :: rest2 => parseEsc force (epart ++ [d]) rest2
    else if c = '.' then
      .ok { part := epart, path := rest, force := force, more := true }
    else if c = '*' ∨ c = '?' then
      .error "wildcard characters not allowed in path"
    else if c = '#' then
      .error "array access character not allowed in path"
    else
      parseEsc force (epart ++ [c]) rest

/-- The plain loop of `parsePath` (sjson.go lines 34-78): `acc` is the
prefix `path[:i]` scanned so far; a `.` ends the segment, `*` `?` `#`
are errors, a backslash consumes the next byte into the key and switches
to the escape-mode loop. -/
def parsePlain (force : Bool) (acc : Str) : Str → Except String PathResult
  | [] => .ok { part := acc, path := [], force := force, more := false }
  | c :: rest =>
    if c = '.' then
      .ok { part := acc, path := rest, force := force, more := true }
    else if c = '*' ∨ c = '?' then
      .error "wildcard characters not allowed in path"
    else if c = '#' then
      .error "array access character not allowed in path"
    else if c = '\\' then
      match rest with
      | [] => .ok { part := acc, path := [], force := force, more := false }
      | d :: rest2 => parseEsc force (acc ++ [d]) rest2
    else
      parsePlain force (acc ++ [c]) rest

/-- Embeds `parsePath` (sjson.go lines 28-81): strips a leading `:` into
the `force` flag, then scans one segment. -/
def parsePath (path : Str) : Except String PathResult :=
  match path with
  | ':' :: rest => parsePlain true [] rest
  | _ => parsePlain false [] path

/-- The four bytes the fast path of `appendStringify` refuses
(sjson.go line 86): a control byte, a non-ASCII byte, or a double quote. -/
def needsMarshal (c : Char) : Bool :=
  c < ' ' || c > '\x7f' || c = '"'

/-- Models the external `encoding/json` escaping of one byte (the slow
path collaborator of `appendStringify`): quote, backslash, `\n` `\r` `\t`
get two-byte escapes, other control bytes and the HTML-unsafe `<` `>` `&`
get `\u00XX`, everything else is copied through. -/
def goMarshalChar (c : Char) : Str :=
  if c = '"' then ['\\', '"']
  else if c = '\\' then ['\\', '\\']
  else if c = '\n' then ['\\', 'n']
  else if c = '\r' then ['\\', 'r']
  else if c = '\t' then ['\\', 't']
  else if c < ' ' || c = '<' || c = '>' || c = '&' then
    ['\\', 'u', '0', '0',
      (s2l "0123456789abcdef").getD (c.toNat / 16) '0',
      (s2l "0123456789abcdef").getD (c.toNat % 16) '0']
  else [c]

/-- Models the external `jsongo.Marshal` applied to a string value:
a quoted JSON string literal with every byte escaped per
`goMarshalChar`. -/
def goMarshalString (s : Str) : Str :=
  '"' :: (s.map goMarshalChar).flatten ++ ['"']

/-- Embeds `appendStringify` (sjson.go lines 84-95): if any byte is a
control byte, non-ASCII, or a double quote, delegate the whole string to
the JSON encoder; otherwise wrap it directly in double quotes. -/
def appendStringify (buf : Str) (s : Str) : Str :=
  if s.any needsMarshal then buf ++ goMarshalString s
  else buf ++ '"' :: s ++ ['"']

/-- The digit loop of `atoui`: `none` on the first non-digit byte.
The accumulator wraps like Go's 64-bit `int` (`wrap64`). -/
def atouiLoop : Str → Int → Option Int
  | [], n => some n
  | c :: rest, n =>
    if c < '0' ∨ c > '9' then none
    else atouiLoop rest ((((n * 10 + (c.toNat - '0'.toNat)) + 2 ^ 63) % 2 ^ 64) - 2 ^ 63)

/-- Embeds `atoui` (sjson.go lines 126-137): a forced segment is never
numeric; otherwise the part must be all digits (an empty part counts as
the number 0, as in the source). -/
def atoui (r : PathResult) : Int × Bool :=
  if r.force then (0, false)
  else
    match atouiLoop r.part 0 with
    | none => (0, false)
    | some n => (n, true)

/-- Embeds `appendRepeat` (sjson.go lines 140-145): append `s` to `buf`
`n` times (never for a non-positive `n`, exactly like the Go loop). -/
def appendRepeat (buf : Str) (s : Str) (n : Int) : Str :=
  buf ++ (List.replicate n.toNat s).flatten

/-- The leading-whitespace loop of `trim` (sjson.go lines 149-155). -/
def trimLeft : Str → Str
  | [] => []
  | c :: rest => if c ≤ ' ' then trimLeft rest else c :: rest

/-- Embeds `trim` (sjson.go lines 148-164): strips bytes `≤ ' '` from
both ends. -/
def trim (s : Str) : Str :=
  (trimLeft (trimLeft s).reverse).reverse

/-! ## The lookup collaborator (gjson)

sjson consumes `gjson.Get`, `gjson.Parse` and `Result.Array` as external
black boxes (spec §1: "consumed as a black-box locate capability
returning a byte range ... for a given path segment").  The model below
follows their documented behaviour for the single-segment, wildcard-free
keys the write engine is allowed to pass (wildcards `*` `?` and the
array-query `#` are rejected by `parsePath` before any lookup): an exact
object-key lookup or a non-negative decimal array index, reported as the
byte offset and raw byte extent of the located value, with
`⟨0, []⟩` meaning "not found". -/

/-- A located value, embedding the two fields of `gjson.Result` that
sjson reads: `Index` (byte offset of the raw value in the containing
document, 0 = not found) and `Raw` (the value's raw bytes). -/
structure GResult where
  index : Nat
  raw : Str
deriving DecidableEq, Repr

/-- The "not found" lookup result: offset 0, empty raw text. -/
def GResult.notFound : GResult := ⟨0, []⟩

/-- Number of leading bytes `≤ ' '` (the whitespace-skipping loops of the
collaborator and of sjson itself both treat exactly those as blank). -/
def wsCount : Str → Nat
  | [] => 0
  | c :: rest => if c ≤ ' ' then wsCount rest + 1 else 0

/-- Length of a JSON string body up to and including the closing quote,
starting just after the opening quote; a backslash always consumes the
next byte.  An unterminated string consumes the rest of the input. -/
def scanStringLen : Str → Nat
  | [] => 0
  | '\\' :: rest =>
    match rest with
    | [] => 1
    | _ :: rest2 => 2 + scanStringLen rest2
  | '"' :: _ => 1
  | _ :: rest => 1 + scanStringLen rest

/-- Length of a bracketed JSON value body up to and including the closing
bracket, starting just after the opening bracket: brackets of either kind
track one depth counter and string bodies are skipped opaquely. -/
def scanDepthLen (fuel : Nat) (l : Str) (depth : Nat) : Nat :=
  match fuel with
  | 0 => 0
  | fuel + 1 =>
    match l with
    | [] => 0
    | c :: rest =>
      if c = '"' then
        let k := scanStringLen rest
        1 + k + scanDepthLen fuel (rest.drop k) depth
      else if c = '{' ∨ c = '[' then 1 + scanDepthLen fuel rest (depth + 1)
      else if c = '}' ∨ c = ']' then
        if depth = 0 then 1 else 1 + scanDepthLen fuel rest (depth - 1)
      else 1 + scanDepthLen fuel rest depth

/-- Length of one raw JSON value at the head of `l` (no leading
whitespace): a string, a bracketed object/array, or a literal running to
the next delimiter. -/
def scanValueLen (l : Str) : Nat :=
  match l with
  | [] => 0
  | c :: rest =>
    if c = '"' then 1 + scanStringLen rest
    else if c = '{' ∨ c = '[' then 1 + scanDepthLen rest.length rest 0
    else if c ≤ ' ' ∨ c = ',' ∨ c = ']' ∨ c = '}' then 0
    else
      let go : Str → Nat := fun r => (r.takeWhile
        (fun d => ¬(d ≤ ' ' ∨ d = ',' ∨ d = ']' ∨ d = '}'))).length
      1 + go rest

/-- Key unescaping as the collaborator performs it when comparing an
object key literal to a path part: a backslash yields the following byte
literally. -/
def unescapeKey : Str → Str
  | [] => []
  | '\\' :: rest =>
    match rest with
    | [] => []
    | d :: rest2 => d :: unescapeKey rest2
  | c :: rest => c :: unescapeKey rest

/-- Member loop of the object lookup: `l` is the input just after `{` or
after a member separator, `pos` its absolute byte offset.  Each round
reads `"key" : value`; on a key match the value's offset and raw extent
are returned, otherwise the scan continues past the next comma. -/
def getObjectLoop (fuel : Nat) (l : Str) (pos : Nat) (part : Str) : GResult :=
  match fuel with
  | 0 => .notFound
  | fuel + 1 =>
    let w := wsCount l
    let l1 := l.drop w
    let pos1 := pos + w
    match l1 with
    | '"' :: krest =>
      let klen := scanStringLen krest
      let key := unescapeKey (krest.take (klen - 1))
      let l2 := krest.drop klen
      let pos2 := pos1 + 1 + klen
      let w2 := wsCount l2
      match l2.drop w2 with
      | ':' :: vpre =>
        let w3 := wsCount vpre
        let v := vpre.drop w3
        let vlen := scanValueLen v
        let vpos := pos2 + w2 + 1 + w3
        if key = part then ⟨vpos, v.take vlen⟩
        else
          let l3 := v.drop vlen
          let w4 := wsCount l3
          match l3.drop w4 with
          | ',' :: next => getObjectLoop fuel next (vpos + vlen + w4 + 1) part
          | _ => .notFound
      | _ => .notFound
    | _ => .notFound

/-- Element loop of the array-index lookup: returns the offset and raw
extent of element number `n`, or not-found past the closing bracket. -/
def getArrayLoop (fuel : Nat) (l : Str) (pos : Nat) (n : Nat) (idx : Nat) :
    GResult :=
  match fuel with
  | 0 => .notFound
  | fuel + 1 =>
    let w := wsCount l
    let l1 := l.drop w
    let pos1 := pos + w
    match l1 with
    | [] => .notFound
    | ']' :: _ => .notFound
    | _ =>
      let vlen := scanValueLen l1
      if idx = n then ⟨pos1, l1.take vlen⟩
      else
        let l2 := l1.drop vlen
        let w2 := wsCount l2
        match l2.drop w2 with
        | ',' :: next => getArrayLoop fuel next (pos1 + vlen + w2 + 1) n (idx + 1)
        | _ => .notFound

/-- A path part usable as an array index: one or more decimal digits. -/
def parseIndex (part : Str) : Option Nat :=
  if part = [] ∨ part.any (fun c => c < '0' ∨ c > '9') then none
  else some (part.foldl (fun n c => n * 10 + (c.toNat - '0'.toNat)) 0)

/-- Models `gjson.Get(json, part)` for a single wildcard-free segment:
object-key lookup under a `{` root, index lookup under a `[` root,
not-found everywhere else.  A found value always has a positive offset
(it sits behind at least the opening bracket). -/
def gjsonGet (jstr : Str) (part : Str) : GResult :=
  let w := wsCount jstr
  match jstr.drop w with
  | '{' :: rest => getObjectLoop (rest.length + 1) rest (w + 1) part
  | '[' :: rest =>
    match parseIndex part with
    | some n => getArrayLoop (rest.length + 1) rest (w + 1) n 0
    | none => .notFound
  | _ => .notFound

/-- The two fields of `gjson.Parse`'s result that sjson reads: whether
the type is `gjson.JSON`, and the raw text (which runs from the first
structural byte to the end of the input). -/
structure PResult where
  isJSON : Bool
  raw : Str
deriving DecidableEq, Repr

/-- Models `gjson.Parse(jstr)` as sjson consumes it: the type is
`gjson.JSON` exactly when the first non-blank byte is `{` or `[`, and
`Raw` then extends from that byte to the end of the input. -/
def gjsonParse (jstr : Str) : PResult :=
  let rest := jstr.drop (wsCount jstr)
  match rest with
  | '{' :: _ => ⟨true, rest⟩
  | '[' :: _ => ⟨true, rest⟩
  | _ => ⟨false, rest⟩

/-- Element loop of `Result.Array()`: splits the body of an array literal
into the raw texts of its top-level elements. -/
def arrayElemsLoop (fuel : Nat) (l : Str) : List Str :=
  match fuel with
  | 0 => []
  | fuel + 1 =>
    let l1 := l.drop (wsCount l)
    match l1 with
    | [] => []
    | ']' :: _ => []
    | _ =>
      let vlen := scanValueLen l1
      let elem := l1.take vlen
      let l2 := l1.drop vlen
      match (l2.drop (wsCount l2)) with
      | ',' :: next => elem :: arrayElemsLoop fuel next
      | _ => [elem]

/-- Models `jsres.Array()` for a raw value that starts with `[`: the list
of raw element texts, in order. -/
def arrayElems (raw : Str) : List Str :=
  match raw with
  | '[' :: rest => arrayElemsLoop (rest.length + 1) rest
  | _ => []

/-! ## The fragment builder and the splice engine -/

/-- Embeds `appendBuild` (sjson.go lines 98-123): outside array context
emit `"key":` for the first segment; with more segments nest an array of
`n` `null,` placeholders when the next segment is numeric, else an
object; at the leaf emit the raw value, stringified or verbatim.
(The engine only ever calls this with a non-empty segment list; the `[]`
arm mirrors the leaf emission.) -/
def appendBuild (buf : Str) (array : Bool) (paths : List PathResult)
    (raw : Str) (stringify : Bool) : Str :=
  match paths with
  | [] => if stringify then appendStringify buf raw else buf ++ raw
  | p :: rest =>
    let buf := if !array then appendStringify buf p.part ++ [':'] else buf
    match rest with
    | [] => if stringify then appendStringify buf raw else buf ++ raw
    | q :: _ =>
      let (n, numeric) := atoui q
      if numeric then
        let buf := buf ++ ['[']
        let buf := appendRepeat buf (s2l "null,") n
        let buf := appendBuild buf true rest raw stringify
        buf ++ [']']
      else
        let buf := buf ++ ['{']
        let buf := appendBuild buf false rest raw stringify
        buf ++ ['}']

/-- The element re-emission loop of the array insert branch
(sjson.go lines 254-259): elements joined by commas. -/
def emitElems (buf : Str) (ress : List Str) : Str :=
  match ress with
  | [] => buf
  | e :: es => es.foldl (fun b x => b ++ [','] ++ x) (buf ++ e)

/-- The comma scan of `appendRawPaths` (sjson.go lines 207-217): starting
from the second byte of the parsed raw text, the container already has a
member exactly when the first non-blank byte is not a closing bracket. -/
def commaLoop : Str → Bool
  | [] => false
  | c :: rest =>
    if c ≤ ' ' then commaLoop rest
    else if c = '}' ∨ c = ']' then false
    else true

/-- `commaCheck raw` is the `comma` flag computed from `jsres.Raw`. -/
def commaCheck : Str → Bool
  | [] => false
  | _ :: rest => commaLoop rest

/-- The not-found tail of `appendRawPaths` (sjson.go lines 188-271): a
blank document is initialized to `[]` or `{}` by the numeric test on the
current key, the document must then parse as an object or array, and the
built fragment is inserted — before the closing `}` of an object, or into
an array by `-1` append, by `null` padding up to a numeric index, or
rejected for any other key.  (The engine never reaches this with an empty
segment list; that arm mirrors the NotObjectOrArray failure.) -/
def appendRawPathsNotFound (buf : Str) (jstr : Str) (paths : List PathResult)
    (raw : Str) (stringify : Bool) : Except String Str :=
  match paths with
  | [] => .error "json must be an object or array"
  | p :: _ =>
    let (n, numeric) := atoui p
    let isempty := !(jstr.any (fun c => c > ' '))
    let jstr := if isempty then (if numeric then s2l "[]" else s2l "\x7b\x7d")
      else jstr
    let jsres := gjsonParse jstr
    if !jsres.isJSON then .error "json must be an object or array"
    else
      let comma := commaCheck jsres.raw
      match jsres.raw with
      | '{' :: rawRest =>
        let buf := buf ++ ['{']
        let buf := appendBuild buf false paths raw stringify
        let buf := if comma then buf ++ [','] else buf
        .ok (buf ++ rawRest)
      | '[' :: _ =>
        if !numeric ∧ ¬(p.part = s2l "-1" ∧ p.force = false) then
          .error "array key must be numeric"
        else if !numeric then
          let njson := trim jsres.raw
          let njson := if njson.getLast? = some ']' then njson.dropLast
            else njson
          let buf := buf ++ njson
          let buf := if comma then buf ++ [','] else buf
          let buf := appendBuild buf true paths raw stringify
          .ok (buf ++ [']'])
        else
          let buf := buf ++ ['[']
          let ress := arrayElems jsres.raw
          let buf := emitElems buf ress
          let buf :=
            if ress = [] then appendRepeat buf (s2l "null,") (n - ress.length)
            else
              let buf := appendRepeat buf (s2l ",null") (n - ress.length)
              if comma then buf ++ [','] else buf
          let buf := appendBuild buf true paths raw stringify
          .ok (buf ++ [']'])
      | _ => .error "json must be an object or array"

/-- Embeds `appendRawPaths` (sjson.go lines 166-272), parametric in the
lookup collaborator `get` (the source calls `gjson.Get` there): a lookup
with positive offset is a found value — recurse into its raw text or
splice the replacement over its byte range — and any other lookup result
falls into the not-found tail.  (The engine never reaches an empty
segment list; that arm mirrors the not-found tail's behaviour.) -/
def appendRawPathsWith (get : Str → Str → GResult) (buf : Str) (jstr : Str)
    (paths : List PathResult) (raw : Str) (stringify : Bool) :
    Except String Str :=
  match paths with
  | [] => appendRawPathsNotFound buf jstr [] raw stringify
  | p :: rest =>
    let res := get jstr p.part
    if res.index > 0 then
      if rest ≠ [] then
        match appendRawPathsWith get (buf ++ jstr.take res.index) res.raw rest
            raw stringify with
        | .error e => .error e
        | .ok buf2 => .ok (buf2 ++ jstr.drop (res.index + res.raw.length))
      else
        let buf := buf ++ jstr.take res.index
        let buf := if stringify then appendStringify buf raw else buf ++ raw
        .ok (buf ++ jstr.drop (res.index + res.raw.length))
    else
      appendRawPathsNotFound buf jstr (p :: rest) raw stringify

/-- `appendRawPaths` as the source runs it: the lookup collaborator is
`gjson.Get`. -/
def appendRawPaths (buf : Str) (jstr : Str) (paths : List PathResult)
    (raw : Str) (stringify : Bool) : Except String Str :=
  appendRawPathsWith gjsonGet buf jstr paths raw stringify

/-! ## The public entry points -/

/-- When a segment still has `more` path to parse, that remainder is a
strict suffix of the escape-loop's input. -/
theorem parseEsc_more_lt (f : Bool) (ep l : Str) :
    ∀ r : PathResult, parseEsc f ep l = .ok r → r.more = true →
      r.path.length < l.length := by
  induction ep, l using parseEsc.induct f with
  | case1 ep =>
    intro r h hm
    simp [parseEsc] at h
    subst h
    simp at hm
  | case2 ep =>
    intro r h hm
    simp [parseEsc] at h
    subst h
    simp at hm
  | case3 ep d rest2 ih =>
    intro r h hm
    simp only [parseEsc, reduceIte] at h
    have := ih r h hm
    simp only [List.length_cons]
    omega
  | case4 ep rest h1 =>
    intro r h hm
    rw [parseEsc.eq_def] at h
    simp at h
    subst h
    simp
  | case5 ep c rest h1 h2 h3 =>
    intro r h hm
    rw [parseEsc.eq_def] at h
    simp [h1, h2, h3] at h
  | case6 ep rest h1 h2 h3 =>
    intro r h hm
    rw [parseEsc.eq_def] at h
    simp at h
  | case7 ep c rest h1 h2 h3 h4 ih =>
    intro r h hm
    rw [parseEsc.eq_def] at h
    simp [h1, h2, h3, h4] at h
    have := ih r h hm
    simp only [List.length_cons]
    omega

/-- When a segment still has `more` path to parse, that remainder is a
strict suffix of the plain loop's input. -/
theorem parsePlain_more_lt (f : Bool) (acc l : Str) :
    ∀ r : PathResult, parsePlain f acc l = .ok r → r.more = true →
      r.path.length < l.length := by
  induction acc, l using parsePlain.induct f with
  | case1 acc =>
    intro r h hm
    simp [parsePlain] at h
    subst h
    simp at hm
  | case2 acc rest =>
    intro r h hm
    simp [parsePlain] at h
    subst h
    simp
  | case3 acc c rest h1 h2 =>
    intro r h hm
    simp [parsePlain, h1, h2] at h
  | case4 acc rest h1 h2 =>
    intro r h hm
    simp [parsePlain] at h
  | case5 acc h1 h2 h3 =>
    intro r h hm
    simp [parsePlain] at h
    subst h
    simp at hm
  | case6 acc d rest2 h1 h2 h3 =>
    intro r h hm
    simp [parsePlain] at h
    have := parseEsc_more_lt f (acc ++ [d]) rest2 r h hm
    simp only [List.length_cons]
    omega
  | case7 acc c rest h1 h2 h3 h4 ih =>
    intro r h hm
    simp [parsePlain, h1, h2, h3, h4] at h
    have := ih r h hm
    simp only [List.length_cons]
    omega

/-- When a parsed segment announces `more`, its remaining path is
strictly shorter than the parsed path. -/
theorem parsePath_more_lt (path : Str) (r : PathResult)
    (h : parsePath path = .ok r) (hm : r.more = true) :
    r.path.length < path.length := by
  unfold parsePath at h
  split at h
  · have := parsePlain_more_lt true [] _ r h hm
    simp only [List.length_cons]
    omega
  · exact parsePlain_more_lt false [] path r h hm

/-- The segment loop inside `set` with an explicit recursion budget
(`none` = budget exhausted; `parseAllF_budget` below shows a budget of
the path length always suffices, by `parsePath_more_lt`). -/
def parseAllF (fuel : Nat) (path : Str) :
    Option (Except String (List PathResult)) :=
  match fuel with
  | 0 => none
  | fuel + 1 =>
    match parsePath path with
    | .error e => some (.error e)
    | .ok r =>
      if r.more then
        match parseAllF fuel r.path with
        | none => none
        | some (.error e) => some (.error e)
        | some (.ok rest) => some (.ok (r :: rest))
      else some (.ok [r])

/-- Embeds the segment loop inside `set` (sjson.go lines 280-291): parse
a segment, and while it has `more`, keep parsing the remainder.  The
budget `path.length + 1` always suffices (`parseAllF_budget`), so the
fallback arm is unreachable. -/
def parseAll (path : Str) : Except String (List PathResult) :=
  match parseAllF (path.length + 1) path with
  | some r => r
  | none => .error "path cannot be empty"

/-- Embeds `set` (sjson.go lines 274-298): an empty path is an error,
then every segment is parsed (any path error aborts before the document
is touched), then the splice engine runs once over the whole document. -/
def set (jstr path raw : Str) (stringify : Bool) : Except String Str :=
  if path = [] then .error "path cannot be empty"
  else
    match parseAll path with
    | .error e => .error e
    | .ok paths => appendRawPaths [] jstr paths raw stringify

/-- The typed values accepted by `SetBytes` (sjson.go lines 347-392).
The explicit coercion cases carry the value; every integer width shares
one constructor because all eight Go cases produce the same
`strconv.FormatInt`/`FormatUint` decimal text, and the two float widths
carry the text `strconv.FormatFloat` would produce (an external
collaborator).  `other` is any type outside the switch, carried as the
outcome of the external `jsongo.Marshal` collaborator. -/
inductive GoValue where
  | str (s : Str)
  | bytes (b : Str)
  | boolean (b : Bool)
  | intv (n : Int)
  | uintv (n : Nat)
  | floatv (formatted : Str)
  | other (marshal : Except String Str)
deriving Repr

/-- Decimal text of a natural number, as `strconv.FormatUint` renders
it. -/
def formatNat (n : Nat) : Str := Nat.toDigits 10 n

/-- Decimal text of an integer, as `strconv.FormatInt` renders it. -/
def formatInt (n : Int) : Str :=
  if n < 0 then '-' :: formatNat n.natAbs else formatNat n.toNat

/-- Embeds `SetBytes` (sjson.go lines 347-392) including its flow of the
two named results `res, err`.  In the `default:` case the source declares
a fresh `err` with `b, err := jsongo.Marshal(value)`; the later
`res, err = set(...)` assigns that inner, shadowed `err`, so the outer
`err` that the function returns stays nil even when `set` fails.  The
model returns the pair `(res, err)` of the outer variables. -/
def SetBytes (json path : Str) (value : GoValue) :
    Option Str × Option String :=
  match value with
  | .other m =>
    match m with
    | .error e => (none, some e)
    | .ok raw =>
      match set json path raw false with
      | .ok r => (some r, none)
      | .error _ => (none, none)
  | .str v =>
    match set json path v true with
    | .ok r => (some r, none)
    | .error e => (none, some e)
  | .bytes v =>
    match set json path v true with
    | .ok r => (some r, none)
    | .error e => (none, some e)
  | .boolean v =>
    match set json path (if v then s2l "true" else s2l "false") false with
    | .ok r => (some r, none)
    | .error e => (none, some e)
  | .intv v =>
    match set json path (formatInt v) false with
    | .ok r => (some r, none)
    | .error e => (none, some e)
  | .uintv v =>
    match set json path (formatNat v) false with
    | .ok r => (some r, none)
    | .error e => (none, some e)
  | .floatv v =>
    match set json path v false with
    | .ok r => (some r, none)
    | .error e => (none, some e)

/-! ## Deletion mode -/

/-- Comma repair around an excised byte range, following spec §4.5:
exactly one separator between the new neighbours survives, and a
now-dangling leading separator is dropped — if the suffix begins with a
comma that comma goes, otherwise a comma dangling at the end of the
prefix goes. -/
def deleteSplice (pre suf : Str) : Str :=
  let sufT := trimLeft suf
  match sufT with
  | ',' :: sufRest => pre ++ sufRest
  | _ =>
    let preT := (trimLeft pre.reverse).reverse
    match preT.getLast? with
    | some ',' => preT.dropLast ++ suf
    | _ => pre ++ suf

/-- Modelled from the spec: Deletion Mode (§4.5).  The repository's
`Delete` / `DeleteBytes` implementations are not under src/ (only the
tests call them), so this follows the spec's words: reuse the lookup
collaborator exactly as §4.2 step 1, recursing one segment at a time; a
located value is excised as prefix + suffix with comma repair; "If the
path does not resolve, the document is returned unchanged
(delete-of-absent-key is not an error)." -/
def deleteRawPaths (jstr : Str) (paths : List PathResult) :
    Except String Str :=
  match paths with
  | [] => .error "paths must not be empty"
  | p :: rest =>
    let res := gjsonGet jstr p.part
    if res.index > 0 then
      if rest ≠ [] then
        match deleteRawPaths res.raw rest with
        | .error e => .error e
        | .ok sub =>
          .ok (jstr.take res.index ++ sub ++
            jstr.drop (res.index + res.raw.length))
      else
        .ok (deleteSplice (jstr.take res.index)
          (jstr.drop (res.index + res.raw.length)))
    else
      .ok jstr

/-- Modelled from the spec: the public `delete(document, path)` operation
(§4.5, §6) — parse the path exactly as `set` does, then run deletion
mode. -/
def deleteValue (jstr path : Str) : Except String Str :=
  if path = [] then .error "path cannot be empty"
  else
    match parseAll path with
    | .error e => .error e
    | .ok paths => deleteRawPaths jstr paths

/-! ## Fuel-bounded variants

The recursion of the splice engine and of the segment loop is bounded by
the number of path segments (itself at most the path length).  The
fuel-bounded functions below return `none` when the recursion budget is
exhausted; the theorems for C9 show a budget of the segment count (resp.
the path length) always suffices, so no input drives either recursion
deeper. -/

/-- `appendRawPathsWith` with an explicit recursion budget. -/
def appendRawPathsF (get : Str → Str → GResult) (fuel : Nat) (buf : Str)
    (jstr : Str) (paths : List PathResult) (raw : Str) (stringify : Bool) :
    Option (Except String Str) :=
  match fuel with
  | 0 => none
  | fuel + 1 =>
    match paths with
    | [] => some (appendRawPathsNotFound buf jstr [] raw stringify)
    | p :: rest =>
      let res := get jstr p.part
      if res.index > 0 then
        if rest ≠ [] then
          match appendRawPathsF get fuel (buf ++ jstr.take res.index) res.raw
              rest raw stringify with
          | none => none
          | some (.error e) => some (.error e)
          | some (.ok buf2) =>
            some (.ok (buf2 ++ jstr.drop (res.index + res.raw.length)))
        else
          let buf := buf ++ jstr.take res.index
          let buf := if stringify then appendStringify buf raw else buf ++ raw
          some (.ok (buf ++ jstr.drop (res.index + res.raw.length)))
      else
        some (appendRawPathsNotFound buf jstr (p :: rest) raw stringify)

/-! ## Spec-side definitions used to state the claims -/

/-- Comma-separated join of raw fragments (the element list of an array
literal body). -/
def joinComma : List Str → Str
  | [] => []
  | x :: xs => x ++ (xs.map (fun e => ',' :: e)).flatten

/-- The JSON string literal produced for `s` (the buffer-free reading of
`appendStringify`; `appendStringify_eq` below ties the two). -/
def jsonString (s : Str) : Str :=
  if s.any needsMarshal then goMarshalString s else '"' :: s ++ ['"']

/-- Modelled from the spec (§4.3): the minimal JSON fragment holding one
value at the given sub-path — outside array context a `"key":` prefix,
then per segment either an array literal of `null` placeholders followed
by the built tail (numeric key) or an object literal wrapping the tail,
and the raw value at the leaf. -/
def specFragment (isArrayCtx : Bool) (paths : List PathResult) (raw : Str)
    (st : Bool) : Str :=
  match paths with
  | [] => if st then jsonString raw else raw
  | p :: rest =>
    let keyPart : Str :=
      if isArrayCtx then [] else jsonString p.part ++ [':']
    keyPart ++
      (match rest with
       | [] => if st then jsonString raw else raw
       | q :: _ =>
         let (m, numeric) := atoui q
         if numeric then
           '[' :: joinComma (List.replicate m.toNat (s2l "null") ++
             [specFragment true rest raw st]) ++ [']']
         else '{' :: specFragment false rest raw st ++ ['}'])

/-- Modelled from the spec (§4.2 step 4): the whole-document result of
setting a value at a path into a blank document — the document becomes
`[...]` when the first key is numeric (with that many `null`
placeholders before the built tail) and `{...}` otherwise, holding
exactly the minimal nesting of §4.3. -/
def specMinimalDoc (paths : List PathResult) (raw : Str) (st : Bool) : Str :=
  match paths with
  | [] => []
  | p :: _ =>
    let (n, numeric) := atoui p
    if numeric then
      '[' :: joinComma (List.replicate n.toNat (s2l "null") ++
        [specFragment true paths raw st]) ++ [']']
    else '{' :: specFragment false paths raw st ++ ['}']

/-- The error message the path parser owes for a reserved character, if
`c` is one (spec §4.1): wildcard class for `*` `?`, array-access class
for `#`. -/
def badMsg (c : Char) : Option String :=
  if c = '*' ∨ c = '?' then some "wildcard characters not allowed in path"
  else if c = '#' then some "array access character not allowed in path"
  else none

/-- The first unescaped reserved character of a whole path, scanning left
to right with a backslash protecting the byte after it (spec §3
invariant / §4.1). -/
def firstBad : Str → Option String
  | [] => none
  | c :: rest =>
    if c = '\\' then
      match rest with
      | [] => none
      | _ :: r2 => firstBad r2
    else
      match badMsg c with
      | some m => some m
      | none => firstBad rest

/-- Hexadecimal digit value, for `\uXXXX` escapes. -/
def hexVal (c : Char) : Option Nat :=
  if '0' ≤ c ∧ c ≤ '9' then some (c.toNat - '0'.toNat)
  else if 'a' ≤ c ∧ c ≤ 'f' then some (c.toNat - 'a'.toNat + 10)
  else if 'A' ≤ c ∧ c ≤ 'F' then some (c.toNat - 'A'.toNat + 10)
  else none

/-- Decodes the body of an RFC 8259 string literal (everything after the
opening quote): the closing quote must end the literal, the short
escapes and `\uXXXX` decode to their characters, unescaped control
characters and unterminated strings are rejected. -/
def jsonDecodeBody : Str → Option Str
  | [] => none
  | '"' :: rest => if rest = [] then some [] else none
  | '\\' :: rest =>
    match rest with
    | 'u' :: h1 :: h2 :: h3 :: h4 :: r2 =>
      match hexVal h1, hexVal h2, hexVal h3, hexVal h4 with
      | some a, some b, some c, some d =>
        match jsonDecodeBody r2 with
        | some tail => some (Char.ofNat (((a * 16 + b) * 16 + c) * 16 + d) :: tail)
        | none => none
      | _, _, _, _ => none
    | e :: r2 =>
      let dec : Option Char :=
        if e = '"' then some '"'
        else if e = '\\' then some '\\'
        else if e = '/' then some '/'
        else if e = 'b' then some '\x08'
        else if e = 'f' then some '\x0c'
        else if e = 'n' then some '\n'
        else if e = 'r' then some '\r'
        else if e = 't' then some '\t'
        else none
      match dec with
      | some d =>
        match jsonDecodeBody r2 with
        | some tail => some (d :: tail)
        | none => none
      | none => none
    | [] => none
  | c :: rest =>
    if c < ' ' then none
    else
      match jsonDecodeBody rest with
      | some tail => some (c :: tail)
      | none => none

/-- Decodes a full RFC 8259 string literal: an opening quote, a body,
and nothing after the closing quote. -/
def jsonStringDecode (l : Str) : Option Str :=
  match l with
  | '"' :: body => jsonDecodeBody body
  | _ => none

/-- The replacement raw value written at found leaves: the stringified
form when `stringify` is set, the raw bytes otherwise. -/
def leafText (raw : Str) (st : Bool) : Str :=
  if st then jsonString raw else raw

/-- The lookup chain that makes a second identical `set` a no-op: at
every level the collaborator reports a found value whose raw text is an
exact slice of the containing buffer, and at the leaf that raw text is
exactly the replacement being written. -/
inductive FoundExact (raw : Str) (st : Bool) : Str → List PathResult → Prop
  | leaf : ∀ (jstr : Str) (p : PathResult),
      0 < (gjsonGet jstr p.part).index →
      (gjsonGet jstr p.part).raw = leafText raw st →
      jstr.take (gjsonGet jstr p.part).index ++ (gjsonGet jstr p.part).raw ++
        jstr.drop ((gjsonGet jstr p.part).index +
          (gjsonGet jstr p.part).raw.length) = jstr →
      FoundExact raw st jstr [p]
  | node : ∀ (jstr : Str) (p q : PathResult) (rest : List PathResult),
      0 < (gjsonGet jstr p.part).index →
      jstr.take (gjsonGet jstr p.part).index ++ (gjsonGet jstr p.part).raw ++
        jstr.drop ((gjsonGet jstr p.part).index +
          (gjsonGet jstr p.part).raw.length) = jstr →
      FoundExact raw st (gjsonGet jstr p.part).raw (q :: rest) →
      FoundExact raw st jstr (p :: q :: rest)

/-- A path that does not resolve through the lookup collaborator: at some
level the lookup reports not-found, every found prefix level being an
exact slice of its containing buffer. -/
inductive NotResolves : Str → List PathResult → Prop
  | here : ∀ (jstr : Str) (p : PathResult) (rest : List PathResult),
      (gjsonGet jstr p.part).index = 0 →
      NotResolves jstr (p :: rest)
  | deeper : ∀ (jstr : Str) (p q : PathResult) (rest : List PathResult),
      0 < (gjsonGet jstr p.part).index →
      jstr.take (gjsonGet jstr p.part).index ++ (gjsonGet jstr p.part).raw ++
        jstr.drop ((gjsonGet jstr p.part).index +
          (gjsonGet jstr p.part).raw.length) = jstr →
      NotResolves (gjsonGet jstr p.part).raw (q :: rest) →
      NotResolves jstr (p :: q :: rest)

/-! ## Helper lemmas -/

/-- Any recursion budget above the path length computes the same segment
list, and that much budget never runs out. -/
theorem parseAllF_budget : ∀ (n : Nat) (path : Str) (fuel : Nat),
    path.length < fuel → path.length ≤ n →
    parseAllF fuel path = parseAllF (path.length + 1) path ∧
    (parseAllF (path.length + 1) path).isSome := by
  intro n
  induction n with
  | zero =>
    intro path fuel hf hn
    have hp : path = [] := List.length_eq_zero.mp (Nat.le_zero.mp hn)
    subst hp
    match fuel, hf with
    | fuel + 1, _ =>
      refine ⟨?_, ?_⟩ <;> simp [parseAllF, parsePath, parsePlain]
  | succ n ih =>
    intro path fuel hf hn
    match fuel, hf with
    | fuel + 1, _ =>
      simp only [parseAllF]
      cases hp : parsePath path with
      | error e => simp
      | ok r =>
        dsimp only
        by_cases hm : r.more
        · have hlt := parsePath_more_lt path r hp hm
          have h1 := ih r.path fuel (by omega) (by omega)
          have h2 := ih r.path path.length (by omega) (by omega)
          obtain ⟨v, hv⟩ := Option.isSome_iff_exists.mp h1.2
          rw [h1.1, hv, h2.1, hv]
          refine ⟨rfl, ?_⟩
          rw [if_pos hm]
          cases v <;> simp
        · simp [hm]

/-- `parseAll` is what the sufficient budget computes. -/
theorem parseAllF_eq_parseAll (path : Str) (fuel : Nat)
    (hf : path.length < fuel) :
    parseAllF fuel path = some (parseAll path) := by
  have h := parseAllF_budget path.length path fuel hf le_rfl
  obtain ⟨v, hv⟩ := Option.isSome_iff_exists.mp h.2
  rw [parseAll, hv, h.1, hv]

/-- The segment loop always yields at least one segment. -/
theorem parseAll_ne_nil (path : Str) (segs : List PathResult)
    (h : parseAll path = .ok segs) : segs ≠ [] := by
  have he := parseAllF_eq_parseAll path (path.length + 1) (by omega)
  rw [h] at he
  rw [parseAllF] at he
  cases hp : parsePath path with
  | error e => rw [hp] at he; simp at he
  | ok r =>
    rw [hp] at he
    dsimp only at he
    by_cases hm : r.more
    · rw [if_pos hm] at he
      cases hq : parseAllF path.length r.path with
      | none => rw [hq] at he; simp at he
      | some v =>
        rw [hq] at he
        cases v with
        | error e => simp at he
        | ok rest =>
          simp only [Option.some.injEq, Except.ok.injEq] at he
          rw [← he]
          simp
    · rw [if_neg hm] at he
      simp only [Option.some.injEq, Except.ok.injEq] at he
      rw [← he]
      simp

/-- Any recursion budget above the segment count runs the splice engine
to completion with the same result. -/
theorem appendRawPathsF_budget : ∀ (paths : List PathResult)
    (get : Str → Str → GResult) (fuel : Nat) (buf jstr raw : Str)
    (st : Bool), paths.length < fuel →
    appendRawPathsF get fuel buf jstr paths raw st =
      some (appendRawPathsWith get buf jstr paths raw st) := by
  intro paths
  induction paths with
  | nil =>
    intro get fuel buf jstr raw st hf
    match fuel, hf with
    | fuel + 1, _ => rfl
  | cons p rest ih =>
    intro get fuel buf jstr raw st hf
    match fuel, hf with
    | fuel + 1, hf2 =>
      simp only [appendRawPathsF, appendRawPathsWith]
      by_cases hidx : (get jstr p.part).index > 0
      · simp only [hidx, if_true]
        by_cases hr : rest = []
        · simp [hr]
        · have hne : rest ≠ [] := hr
          simp only [hne, ne_eq, not_false_eq_true, if_true]
          rw [ih get fuel (buf ++ jstr.take (get jstr p.part).index)
            (get jstr p.part).raw raw st (by simp at hf2; omega)]
          cases appendRawPathsWith get (buf ++ jstr.take (get jstr p.part).index)
              (get jstr p.part).raw rest raw st <;> simp
      · simp [hidx]

/-- `appendStringify` appends exactly the JSON string literal of `s`. -/
theorem appendStringify_eq (buf s : Str) :
    appendStringify buf s = buf ++ jsonString s := by
  unfold appendStringify jsonString
  split <;> simp

/-- The comma-fold of the element re-emission loop, unrolled. -/
theorem foldl_comma (es : List Str) : ∀ A : Str,
    es.foldl (fun b x => b ++ [','] ++ x) A =
      A ++ (es.map (fun e => ',' :: e)).flatten := by
  induction es with
  | nil => intro A; simp
  | cons e es ih =>
    intro A
    rw [List.foldl_cons, ih]
    simp [List.append_assoc]

/-- `joinComma` on a non-empty list, unfolded. -/
theorem joinComma_cons (x : Str) (xs : List Str) :
    joinComma (x :: xs) = x ++ (xs.map (fun e => ',' :: e)).flatten := rfl

/-- The element re-emission loop emits a comma-separated join. -/
theorem emitElems_eq (buf : Str) (ress : List Str) :
    emitElems buf ress = buf ++ joinComma ress := by
  cases ress with
  | nil => simp [emitElems, joinComma]
  | cons e es =>
    rw [show emitElems buf (e :: es) =
      es.foldl (fun b x => b ++ [','] ++ x) (buf ++ e) from rfl]
    rw [foldl_comma, joinComma_cons]
    simp [List.append_assoc]

/-- Prefixing a non-empty join with a comma is the same as mapping the
comma onto every element. -/
theorem comma_join (ys : List Str) (hy : ys ≠ []) :
    ',' :: joinComma ys = (ys.map (fun e => ',' :: e)).flatten := by
  cases ys with
  | nil => contradiction
  | cons y ys => simp [joinComma]

/-- Comma-joins concatenate with a separating comma. -/
theorem joinComma_append (xs ys : List Str) (hy : ys ≠ []) (hx : xs ≠ []) :
    joinComma (xs ++ ys) = joinComma xs ++ ',' :: joinComma ys := by
  cases xs with
  | nil => contradiction
  | cons x xs' =>
    simp only [List.cons_append, joinComma, List.map_append,
      List.flatten_append, ← comma_join ys hy]
    simp [List.append_assoc]

/-- `"null,"` repeated `k` times followed by a fragment is the
comma-join of `k` nulls and the fragment. -/
theorem repNullComma (k : Nat) (X : Str) :
    (List.replicate k (s2l "null,")).flatten ++ X =
      joinComma (List.replicate k (s2l "null") ++ [X]) := by
  induction k with
  | zero => simp [joinComma]
  | succ k ih =>
    rw [List.replicate_succ, List.flatten_cons, List.replicate_succ,
      List.append_assoc, ih, List.cons_append, joinComma_cons,
      ← comma_join (List.replicate k (s2l "null") ++ [X]) (by simp)]
    rw [show s2l "null," = s2l "null" ++ [','] from rfl]
    simp [List.append_assoc]

/-- `",null"` repeated `k` times followed by a comma and a fragment is
the comma that precedes the comma-join of `k` nulls and the fragment. -/
theorem repCommaNull (k : Nat) (X : Str) :
    (List.replicate k (s2l ",null")).flatten ++ ',' :: X =
      ',' :: joinComma (List.replicate k (s2l "null") ++ [X]) := by
  induction k with
  | zero => simp [joinComma]
  | succ k ih =>
    rw [List.replicate_succ, List.flatten_cons, List.replicate_succ,
      List.append_assoc, ih, List.cons_append, joinComma_cons,
      ← comma_join (List.replicate k (s2l "null") ++ [X]) (by simp)]
    rw [show s2l ",null" = ',' :: s2l "null" from rfl]
    simp [List.append_assoc]

/-- `repNullComma` with an explicit trailing context. -/
theorem repNullComma' (k : Nat) (X tail : Str) :
    (List.replicate k (s2l "null,")).flatten ++ (X ++ tail) =
      joinComma (List.replicate k (s2l "null") ++ [X]) ++ tail := by
  rw [← List.append_assoc, repNullComma]

/-- The fragment builder emits exactly the spec's minimal fragment
(§4.3) after its buffer. -/
theorem appendBuild_spec : ∀ (paths : List PathResult) (buf : Str)
    (array : Bool) (raw : Str) (st : Bool),
    appendBuild buf array paths raw st =
      buf ++ specFragment array paths raw st := by
  intro paths
  induction paths with
  | nil =>
    intro buf array raw st
    show (if st then appendStringify buf raw else buf ++ raw) = _
    cases st with
    | false => rfl
    | true => simp [specFragment, appendStringify_eq]
  | cons p rest ih =>
    intro buf array raw st
    cases rest with
    | nil =>
      rw [appendBuild.eq_def, specFragment.eq_def]
      dsimp only
      cases array <;> cases st <;>
        simp [appendStringify_eq, List.append_assoc]
    | cons q rest2 =>
      rw [appendBuild.eq_def, specFragment.eq_def]
      dsimp only
      cases hq : atoui q with
      | mk n numeric =>
        dsimp only
        cases numeric with
        | true =>
          simp only [if_true]
          rw [ih]
          simp only [appendRepeat, List.append_assoc, List.cons_append,
            List.nil_append]
          rw [repNullComma']
          cases array <;> simp [appendStringify_eq, List.append_assoc]
        | false =>
          simp only [Bool.false_eq_true, if_false]
          rw [ih]
          cases array <;> simp [appendStringify_eq, List.append_assoc]

/-- A byte string with no byte above `' '` is all whitespace to the
skipping loops. -/
theorem wsCount_blank : ∀ l : Str, l.any (fun c => c > ' ') = false →
    wsCount l = l.length := by
  intro l
  induction l with
  | nil => intro _; rfl
  | cons c t ih =>
    intro h
    simp only [List.any_cons, Bool.or_eq_false_iff,
      decide_eq_false_iff_not] at h
    show (if c ≤ ' ' then wsCount t + 1 else 0) = _
    rw [if_pos (le_of_not_lt h.1), ih h.2]
    simp

/-- The lookup collaborator finds nothing in a blank document. -/
theorem gjsonGet_blank (jstr part : Str)
    (h : jstr.any (fun c => c > ' ') = false) :
    gjsonGet jstr part = .notFound := by
  unfold gjsonGet
  rw [wsCount_blank jstr h]
  dsimp only
  rw [List.drop_length]

theorem notFound_blank_spec (jstr : Str) (p : PathResult)
    (rest : List PathResult) (raw : Str) (st : Bool)
    (hb : jstr.any (fun c => c > ' ') = false) :
    appendRawPathsNotFound [] jstr (p :: rest) raw st =
      .ok (specMinimalDoc (p :: rest) raw st) := by
  rw [appendRawPathsNotFound.eq_def, specMinimalDoc.eq_def]
  dsimp only
  cases hn : atoui p with
  | mk n numeric =>
    dsimp only
    rw [hb]
    cases numeric with
    | true =>
      norm_num
      rw [show gjsonParse (s2l "[]") = ⟨true, '[' :: [']']⟩ from rfl]
      dsimp only
      norm_num
      rw [show commaCheck ('[' :: [']']) = false from rfl,
        show arrayElems ('[' :: [']']) = ([] : List Str) from rfl]
      norm_num
      rw [show emitElems ['['] ([] : List Str) = ['['] from rfl,
        appendBuild_spec]
      simp only [appendRepeat, List.append_assoc, List.cons_append,
        List.nil_append]
      rw [repNullComma']
    | false =>
      norm_num
      rw [show gjsonParse (s2l "\x7b\x7d") = ⟨true, '{' :: ['}']⟩ from rfl]
      dsimp only
      rw [show commaCheck ('{' :: ['}']) = false from rfl]
      norm_num
      rw [appendBuild_spec]
      simp [List.append_assoc]

/-- C1: the spec claims `appendStringify` always emits a valid JSON
string literal decoding back to its input, with the fast path taken
exactly when every byte is ASCII, printable and not a quote.  The code
violates the round-trip: a single backslash passes the fast-path test
(third conjunct), is wrapped unescaped, and the emitted three bytes
`"\"` are not a decodable JSON string literal (second conjunct). -/
theorem claim1_backslash_breaks_roundtrip :
    appendStringify [] (s2l "\\") = s2l "\"\\\"" ∧
    jsonStringDecode (s2l "\"\\\"") = none ∧
    (s2l "\\").any needsMarshal = false := by
  refine ⟨rfl, rfl, rfl⟩

/-- C2: the spec claims every internal failure of the splice step is
returned as a non-nil error by the public operations, in particular by
`SetBytes`'s generic-marshal fallback.  In that `default:` branch the
source shadows `err`, so when `set` fails (second conjunct: empty path)
`SetBytes` returns a nil result *and* a nil error (first conjunct) — the
failure is silently dropped. -/
theorem claim2_setbytes_default_drops_error :
    SetBytes (s2l "\x7b\x7d") (s2l "") (.other (.ok (s2l "null"))) =
      (none, none) ∧
    set (s2l "\x7b\x7d") (s2l "") (s2l "null") false =
      .error "path cannot be empty" := by
  refine ⟨rfl, rfl⟩

/-- C3 (counterexample): the claim says a genuinely located value whose
byte offset is 0 is special-cased and replaced in place.  It is not:
with a lookup collaborator reporting the found value `1` at offset 0,
the engine runs the insert branch and emits a duplicated member instead
of the in-place replacement `{"a":7}`. -/
theorem claim3_counterexample :
    appendRawPathsWith (fun _ _ => ⟨0, s2l "1"⟩) []
        (s2l "\x7b\"a\":1\x7d")
        [{ part := s2l "a", path := [], force := false, more := false }]
        (s2l "7") false =
      .ok (s2l "\x7b\"a\":7,\"a\":1\x7d") ∧
    s2l "\x7b\"a\":7,\"a\":1\x7d" ≠ s2l "\x7b\"a\":7\x7d" := by
  refine ⟨rfl, by decide⟩

/-- C3 (amended): a lookup result with byte offset 0 — whatever its raw
text, found or not — sends the splice engine into the insert/build tail,
and only a positive offset is treated as found (shown for the leaf
segment: the value's byte range is spliced over). -/
theorem claim3_zero_offset_routes_to_insert (get : Str → Str → GResult)
    (buf jstr : Str) (p : PathResult) (rest : List PathResult) (raw : Str)
    (st : Bool) :
    ((get jstr p.part).index = 0 →
      appendRawPathsWith get buf jstr (p :: rest) raw st =
        appendRawPathsNotFound buf jstr (p :: rest) raw st) ∧
    (0 < (get jstr p.part).index → rest = [] →
      appendRawPathsWith get buf jstr (p :: rest) raw st =
        .ok (buf ++ jstr.take (get jstr p.part).index ++ leafText raw st ++
          jstr.drop ((get jstr p.part).index +
            (get jstr p.part).raw.length))) := by
  constructor
  · intro h
    simp only [appendRawPathsWith, h]
    norm_num
  · intro h hrest
    subst hrest
    simp only [appendRawPathsWith, h, if_true, ne_eq, not_true_eq_false,
      if_false]
    cases st with
    | true =>
      simp [leafText, appendStringify_eq, List.append_assoc]
    | false =>
      simp [leafText, List.append_assoc]

/-- Witness for C3 (amended): with the real lookup, offset 0 on `{}`
routes into the insert tail, and the found element `5` of `[5]` at
offset 1 is replaced in place, yielding `[7]`. -/
theorem claim3_zero_offset_routes_to_insert_witness :
    appendRawPathsWith gjsonGet [] (s2l "\x7b\x7d")
        [{ part := s2l "a", path := [], force := false, more := false }]
        (s2l "1") false =
      appendRawPathsNotFound [] (s2l "\x7b\x7d")
        [{ part := s2l "a", path := [], force := false, more := false }]
        (s2l "1") false ∧
    appendRawPathsWith gjsonGet [] (s2l "[5]")
        [{ part := s2l "0", path := [], force := false, more := false }]
        (s2l "7") false = .ok (s2l "[7]") := by
  constructor
  · exact (claim3_zero_offset_routes_to_insert gjsonGet [] (s2l "\x7b\x7d")
      { part := s2l "a", path := [], force := false, more := false } []
      (s2l "1") false).1 (by decide)
  · have h := (claim3_zero_offset_routes_to_insert gjsonGet [] (s2l "[5]")
      { part := s2l "0", path := [], force := false, more := false } []
      (s2l "7") false).2 (by decide) rfl
    rw [h]
    rfl

/-- C9: every run of the engine is bounded — the segment loop's
recursion depth is at most the path length, and the splice engine's
recursion depth is at most the number of parsed segments: giving either
fuel-bounded variant that much budget never exhausts it and returns
exactly the total function's answer (a result or an error, on any byte
input whatsoever). -/
theorem claim9_recursion_bounded :
    (∀ (fuel : Nat) (path : Str), path.length < fuel →
      parseAllF fuel path = some (parseAll path)) ∧
    (∀ (paths : List PathResult) (get : Str → Str → GResult) (fuel : Nat)
      (buf jstr raw : Str) (st : Bool), paths.length < fuel →
      appendRawPathsF get fuel buf jstr paths raw st =
        some (appendRawPathsWith get buf jstr paths raw st)) := by
  exact ⟨fun fuel path h => parseAllF_eq_parseAll path fuel h,
    fun paths get fuel buf jstr raw st h =>
      appendRawPathsF_budget paths get fuel buf jstr raw st h⟩

/-- Witness for C9: the bounds discharged on a concrete malformed
document and a concrete path. -/
theorem claim9_recursion_bounded_witness :
    parseAllF 4 (s2l "a.b") = some (parseAll (s2l "a.b")) ∧
    appendRawPathsF gjsonGet 2 [] (s2l "xyz")
        [{ part := s2l "a", path := [], force := false, more := false }]
        (s2l "1") false =
      some (appendRawPathsWith gjsonGet [] (s2l "xyz")
        [{ part := s2l "a", path := [], force := false, more := false }]
        (s2l "1") false) := by
  exact ⟨claim9_recursion_bounded.1 4 (s2l "a.b") (by decide),
    claim9_recursion_bounded.2
      [{ part := s2l "a", path := [], force := false, more := false }]
      gjsonGet 2 [] (s2l "xyz") (s2l "1") false (by decide)⟩

/-- When the lookup chain finds, at every level, exactly the text being
written (as an exact slice of its containing buffer), the splice engine
reproduces its input byte for byte. -/
theorem foundExact_noop (jstr : Str) (segs : List PathResult) (raw : Str)
    (st : Bool) (h : FoundExact raw st jstr segs) :
    ∀ buf : Str, appendRawPathsWith gjsonGet buf jstr segs raw st =
      .ok (buf ++ jstr) := by
  induction h with
  | leaf jstr p hidx hraw hslice =>
    intro buf
    simp only [appendRawPathsWith, hidx, if_true, ne_eq, not_true_eq_false,
      if_false]
    cases st with
    | true =>
      have hraw2 : (gjsonGet jstr p.part).raw = jsonString raw := hraw
      rw [if_pos rfl, appendStringify_eq]
      simp only [List.append_assoc]
      simp only [List.append_assoc] at hslice
      rw [← hraw2, hslice]
    | false =>
      have hraw2 : (gjsonGet jstr p.part).raw = raw := hraw
      rw [if_neg (by simp)]
      simp only [List.append_assoc]
      simp only [List.append_assoc] at hslice
      rw [← hraw2, hslice]
  | node jstr p q rest hidx hslice hsub ih =>
    intro buf
    rw [appendRawPathsWith.eq_def]
    dsimp only
    rw [if_pos hidx, if_pos (show ¬(q :: rest = []) from by simp)]
    rw [ih (buf ++ List.take (gjsonGet jstr p.part).index jstr)]
    dsimp only
    simp only [List.append_assoc]
    simp only [List.append_assoc] at hslice
    rw [hslice]

/-- C8 (counterexample): `set` is not idempotent for every path — the
append key `-1` appends again on the second call: setting `2` at `-1`
in `[1]` gives `[1,2]`, and repeating the identical call on that result
gives `[1,2,2]`, not a byte-equal document. -/
theorem claim8_counterexample :
    set (s2l "[1]") (s2l "-1") (s2l "2") false = .ok (s2l "[1,2]") ∧
    set (s2l "[1,2]") (s2l "-1") (s2l "2") false = .ok (s2l "[1,2,2]") ∧
    s2l "[1,2,2]" ≠ s2l "[1,2]" := by
  refine ⟨rfl, rfl, by decide⟩

/-- C8 (amended): `set` is idempotent at paths that locate the written
value — whenever the path lookup chain finds, at every level of the
document, exactly the text the first call wrote (which holds for replace
paths but never for the append key `-1`), running the same `set` again
returns the document unchanged. -/
theorem claim8_set_fixed_point (jstr path raw : Str) (st : Bool)
    (segs : List PathResult) (hp : path ≠ [])
    (hs : parseAll path = .ok segs)
    (hf : FoundExact raw st jstr segs) :
    set jstr path raw st = .ok jstr := by
  unfold set
  rw [if_neg hp, hs]
  dsimp only
  unfold appendRawPaths
  rw [foundExact_noop jstr segs raw st hf []]
  simp

/-- Witness for C8 (amended): re-setting `7` at path `0` of `[7]` — the
result of a first `set` — returns `[7]` unchanged. -/
theorem claim8_set_fixed_point_witness :
    set (s2l "[7]") (s2l "0") (s2l "7") false = .ok (s2l "[7]") :=
  claim8_set_fixed_point (s2l "[7]") (s2l "0") (s2l "7") false
    [{ part := s2l "0", path := [], force := false, more := false }]
    (by decide) rfl
    (FoundExact.leaf (s2l "[7]")
      { part := s2l "0", path := [], force := false, more := false }
      (by decide) rfl rfl)

/-- A path that does not resolve makes deletion a byte-for-byte no-op. -/
theorem notResolves_noop (jstr : Str) (segs : List PathResult)
    (h : NotResolves jstr segs) : deleteRawPaths jstr segs = .ok jstr := by
  induction h with
  | here jstr p rest hidx =>
    simp only [deleteRawPaths, hidx]
    norm_num
  | deeper jstr p q rest hidx hslice hsub ih =>
    rw [deleteRawPaths.eq_def]
    dsimp only
    rw [if_pos hidx, if_pos (show ¬(q :: rest = []) from by simp), ih]
    dsimp only
    rw [hslice]

/-- C10: deleting at a path that does not resolve — the lookup chain
reports not-found at some level — returns the original document
unchanged and is not an error. -/
theorem claim10_delete_absent_noop (jstr path : Str)
    (segs : List PathResult) (hp : path ≠ [])
    (hs : parseAll path = .ok segs) (hn : NotResolves jstr segs) :
    deleteValue jstr path = .ok jstr := by
  unfold deleteValue
  rw [if_neg hp, hs]
  exact notResolves_noop jstr segs hn

/-- Witness for C10: deleting the absent key `3` of `{"1":"2"}` returns
the document unchanged. -/
theorem claim10_delete_absent_noop_witness :
    deleteValue (s2l "\x7b\"1\":\"2\"\x7d") (s2l "3") =
      .ok (s2l "\x7b\"1\":\"2\"\x7d") :=
  claim10_delete_absent_noop (s2l "\x7b\"1\":\"2\"\x7d") (s2l "3")
    [{ part := s2l "3", path := [], force := false, more := false }]
    (by decide) rfl
    (NotResolves.here (s2l "\x7b\"1\":\"2\"\x7d")
      { part := s2l "3", path := [], force := false, more := false } []
      (by decide))

/-- C5: against a blank (all-whitespace or empty) document, `set` builds
exactly the minimal nesting of the spec — the document is initialized to
`[]` when the first key is numeric (and not forced) and `{}` otherwise,
each deeper numeric key becomes an array with null placeholders and each
other key an object, with the one value at the bottom; concretely,
`set("", "name.last", "Anderson")` (string value, so stringified)
returns `{"name":{"last":"Anderson"}}`. -/
theorem claim5_blank_builds_minimal_nesting (jstr path raw : Str)
    (st : Bool) (segs : List PathResult)
    (hb : jstr.any (fun c => c > ' ') = false)
    (hp : path ≠ []) (hs : parseAll path = .ok segs) :
    set jstr path raw st = .ok (specMinimalDoc segs raw st) ∧
    set (s2l "") (s2l "name.last") (s2l "Anderson") true =
      .ok (s2l "\x7b\"name\":\x7b\"last\":\"Anderson\"\x7d\x7d") := by
  constructor
  · unfold set
    rw [if_neg hp, hs]
    obtain ⟨p, rest, rfl⟩ : ∃ p rest, segs = p :: rest := by
      cases segs with
      | nil => exact absurd rfl (parseAll_ne_nil path [] hs)
      | cons p rest => exact ⟨p, rest, rfl⟩
    dsimp only
    unfold appendRawPaths
    rw [appendRawPathsWith.eq_def]
    dsimp only
    rw [gjsonGet_blank jstr p.part hb]
    norm_num [GResult.notFound]
    exact notFound_blank_spec jstr p rest raw st hb
  · rfl

/-- Witness for C5: a blank document, the two-segment path `a.b`, and a
raw value, with every hypothesis discharged concretely. -/
theorem claim5_blank_builds_minimal_nesting_witness :
    set (s2l " ") (s2l "a.b") (s2l "1") false =
      .ok (specMinimalDoc
        [{ part := s2l "a", path := s2l "b", force := false, more := true },
         { part := s2l "b", path := [], force := false, more := false }]
        (s2l "1") false) ∧
    specMinimalDoc
        [{ part := s2l "a", path := s2l "b", force := false, more := true },
         { part := s2l "b", path := [], force := false, more := false }]
        (s2l "1") false = s2l "\x7b\"a\":\x7b\"b\":1\x7d\x7d" := by
  refine ⟨(claim5_blank_builds_minimal_nesting (s2l " ") (s2l "a.b")
    (s2l "1") false _ (by decide) (by decide) rfl).1, rfl⟩

/-- `repCommaNull` with an explicit trailing context. -/
theorem repCommaNull' (k : Nat) (X tail : Str) :
    (List.replicate k (s2l ",null")).flatten ++ (',' :: (X ++ tail)) =
      ',' :: (joinComma (List.replicate k (s2l "null") ++ [X]) ++ tail) := by
  have h := congrArg (· ++ tail) (repCommaNull k X)
  simpa [List.append_assoc] using h

set_option maxRecDepth 8192 in
/-- C4: inserting at a non-forced numeric key `n` at or beyond the end
of an array re-emits the existing elements in order, pads with `null`
until the array has exactly `n` elements (second conjunct), appends the
built value as element `n`, and re-closes; concretely,
`set_raw({"friends":["Andy","Carol"]}, "friends.4", "Sara")` yields
`{"friends":["Andy","Carol",null,null,"Sara"]}`. -/
theorem claim4_array_pad_insert (jstr : Str) (p : PathResult) (raw : Str)
    (ress : List Str) (n : Int)
    (hg : (gjsonGet jstr p.part).index = 0)
    (ha : atoui p = (n, true))
    (hh : jstr.head? = some '[')
    (he : arrayElems jstr = ress)
    (hc : commaCheck jstr = !ress.isEmpty)
    (hn : (ress.length : Int) ≤ n) :
    appendRawPaths [] jstr [p] raw false =
      .ok ('[' :: joinComma (ress ++
        List.replicate (n - ress.length).toNat (s2l "null") ++ [raw]) ++
        [']']) ∧
    (ress ++ List.replicate (n - ress.length).toNat (s2l "null")).length =
      n.toNat ∧
    set (s2l "\x7b\"friends\":[\"Andy\",\"Carol\"]\x7d") (s2l "friends.4")
      (s2l "\"Sara\"") false =
      .ok (s2l "\x7b\"friends\":[\"Andy\",\"Carol\",null,null,\"Sara\"]\x7d") := by
  refine ⟨?_, ?_, rfl⟩
  · cases jstr with
    | nil => simp at hh
    | cons c t =>
      simp only [List.head?_cons, Option.some.injEq] at hh
      subst hh
      unfold appendRawPaths
      rw [appendRawPathsWith.eq_def]
      dsimp only
      rw [hg]
      norm_num
      rw [appendRawPathsNotFound.eq_def]
      dsimp only
      rw [ha]
      rw [show (('[' :: t).any fun c => c > ' ') = true by simp]
      norm_num
      rw [show gjsonParse ('[' :: t) = ⟨true, '[' :: t⟩ from rfl]
      dsimp only
      rw [hc, he]
      norm_num
      cases ress with
      | nil =>
        norm_num
        rw [show emitElems ['['] ([] : List Str) = ['['] from rfl]
        rw [appendBuild_spec,
          show specFragment true [p] raw false = raw from rfl]
        simp only [appendRepeat, List.append_assoc, List.cons_append,
          List.nil_append]
        rw [repNullComma']
      | cons r rs =>
        norm_num
        simp only [show (r :: rs = []) = False by simp, if_false]
        rw [emitElems_eq]
        rw [appendBuild_spec,
          show specFragment true [p] raw false = raw from rfl]
        simp only [appendRepeat, List.append_assoc, List.cons_append,
          List.nil_append, List.singleton_append]
        rw [repCommaNull']
        have hk : (n - ((rs.length : Int) + 1)).toNat =
            n.toNat - (rs.length + 1) := by omega
        rw [hk]
        simp only [← List.cons_append]
        rw [joinComma_append (r :: rs)
          (List.replicate (n.toNat - (rs.length + 1)) (s2l "null") ++ [raw])
          (by simp) (by simp)]
        simp [List.append_assoc]
  · simp only [List.length_append, List.length_replicate]
    omega

/-- Witness for C4: inserting `"Sara"` at index 4 of the two-element
array `["Andy","Carol"]`, with every lookup/shape hypothesis discharged
concretely. -/
theorem claim4_array_pad_insert_witness :
    appendRawPaths [] (s2l "[\"Andy\",\"Carol\"]")
        [{ part := s2l "4", path := [], force := false, more := false }]
        (s2l "\"Sara\"") false =
      .ok (s2l "[\"Andy\",\"Carol\",null,null,\"Sara\"]") := by
  have h := (claim4_array_pad_insert (s2l "[\"Andy\",\"Carol\"]")
    { part := s2l "4", path := [], force := false, more := false }
    (s2l "\"Sara\"") [s2l "\"Andy\"", s2l "\"Carol\""] 4
    (by decide) (by decide) rfl rfl (by decide) (by decide)).1
  rw [h]
  rfl

set_option maxRecDepth 8192 in
/-- C6: a non-forced path key of exactly `-1` against an array root
appends — the trimmed document loses its closing `]`, a comma is
inserted exactly when the source's member scan reports a non-empty
array, the fragment is appended and the array re-closed; concretely,
`set_raw("[1,2]", "-1", "3")` returns `[1,2,3]`. -/
theorem claim6_minus_one_appends (jstr body : Str) (p : PathResult)
    (raw : Str) (nonempty : Bool)
    (hg : (gjsonGet jstr p.part).index = 0)
    (hpart : p.part = s2l "-1") (hforce : p.force = false)
    (hh : jstr.head? = some '[')
    (ht : trim jstr = ('[' :: body) ++ [']'])
    (hc : commaCheck jstr = nonempty) :
    appendRawPaths [] jstr [p] raw false =
      .ok (('[' :: body) ++ (if nonempty then [','] else []) ++ raw ++
        [']']) ∧
    set (s2l "[1,2]") (s2l "-1") (s2l "3") false = .ok (s2l "[1,2,3]") := by
  refine ⟨?_, rfl⟩
  have ha : atoui p = (0, false) := by
    rw [atoui, if_neg (by rw [hforce]; exact Bool.false_ne_true), hpart]
    rfl
  cases jstr with
  | nil => simp at hh
  | cons c t =>
    simp only [List.head?_cons, Option.some.injEq] at hh
    subst hh
    unfold appendRawPaths
    rw [appendRawPathsWith.eq_def]
    dsimp only
    rw [hg]
    norm_num
    rw [appendRawPathsNotFound.eq_def]
    dsimp only
    rw [ha]
    rw [show (('[' :: t).any fun c => c > ' ') = true by simp]
    norm_num
    rw [show gjsonParse ('[' :: t) = ⟨true, '[' :: t⟩ from rfl]
    dsimp only
    rw [hc, hpart, hforce]
    norm_num
    rw [ht, List.getLast?_concat, List.dropLast_concat]
    norm_num
    rw [appendBuild_spec, show specFragment true [p] raw false = raw from rfl]
    cases nonempty <;> simp [List.append_assoc]

/-- Witness for C6: appending `3` to `[1,2]` via the `-1` key, with the
shape hypotheses discharged concretely. -/
theorem claim6_minus_one_appends_witness :
    appendRawPaths [] (s2l "[1,2]")
        [{ part := s2l "-1", path := [], force := false, more := false }]
        (s2l "3") false = .ok (s2l "[1,2,3]") := by
  have h := (claim6_minus_one_appends (s2l "[1,2]") (s2l "1,2")
    { part := s2l "-1", path := [], force := false, more := false }
    (s2l "3") true (by decide) rfl rfl rfl (by decide) (by decide)).1
  rw [h]
  rfl

/-- `firstBad` skips the byte after a backslash. -/
theorem firstBad_esc (d : Char) (r2 : Str) :
    firstBad ('\\' :: d :: r2) = firstBad r2 := rfl

/-- A trailing backslash hides nothing reserved. -/
theorem firstBad_esc_nil : firstBad ['\\'] = none := rfl

/-- On a reserved byte, `firstBad` reports its class message. -/
theorem firstBad_bad (c : Char) (rest : Str) (m : String)
    (hc : ¬c = '\\') (hb : badMsg c = some m) :
    firstBad (c :: rest) = some m := by
  rw [firstBad.eq_def]
  dsimp only
  rw [if_neg hc, hb]

/-- On an ordinary byte, `firstBad` scans on. -/
theorem firstBad_good (c : Char) (rest : Str)
    (hc : ¬c = '\\') (hb : badMsg c = none) :
    firstBad (c :: rest) = firstBad rest := by
  rw [firstBad.eq_def]
  dsimp only
  rw [if_neg hc, hb]

/-- The escape-mode loop against the whole-path scan: a reserved first
unescaped byte makes the loop fail with that byte's message now or after
the segment boundary, and a clean remainder parses with a clean
remainder. -/
theorem parseEsc_scan (f : Bool) (ep l : Str) :
    (∀ m, firstBad l = some m →
      parseEsc f ep l = .error m ∨
      ∃ r, parseEsc f ep l = .ok r ∧ r.more = true ∧
        firstBad r.path = some m) ∧
    (firstBad l = none → ∃ r, parseEsc f ep l = .ok r ∧
      (r.more = true → firstBad r.path = none)) := by
  induction ep, l using parseEsc.induct f with
  | case1 ep =>
    constructor
    · intro m hm
      simp [firstBad] at hm
    · intro _
      exact ⟨_, rfl, fun _ => rfl⟩
  | case2 ep =>
    constructor
    · intro m hm
      rw [firstBad_esc_nil] at hm
      cases hm
    · intro _
      exact ⟨_, rfl, fun _ => rfl⟩
  | case3 ep d rest2 ih =>
    constructor
    · intro m hm
      rw [firstBad_esc] at hm
      rw [show parseEsc f ep ('\\' :: d :: rest2) =
        parseEsc f (ep ++ [d]) rest2 from rfl]
      exact ih.1 m hm
    · intro hm
      rw [firstBad_esc] at hm
      rw [show parseEsc f ep ('\\' :: d :: rest2) =
        parseEsc f (ep ++ [d]) rest2 from rfl]
      exact ih.2 hm
  | case4 ep rest h1 =>
    have hp : parseEsc f ep ('.' :: rest) =
        .ok { part := ep, path := rest, force := f, more := true } := by
      rw [parseEsc.eq_def]
      dsimp only
      rw [if_neg (by decide), if_pos (by decide)]
    constructor
    · intro m hm
      rw [firstBad_good '.' rest (by decide) rfl] at hm
      exact Or.inr ⟨{ part := ep, path := rest, force := f, more := true },
        hp, rfl, hm⟩
    · intro hm
      rw [firstBad_good '.' rest (by decide) rfl] at hm
      exact ⟨{ part := ep, path := rest, force := f, more := true }, hp,
        fun _ => hm⟩
  | case5 ep c rest h1 h2 h3 =>
    have hb : badMsg c = some "wildcard characters not allowed in path" := by
      rcases h3 with h | h <;> subst h <;> rfl
    have hp : parseEsc f ep (c :: rest) =
        .error "wildcard characters not allowed in path" := by
      rw [parseEsc.eq_def]
      dsimp only
      rw [if_neg h1, if_neg h2, if_pos h3]
    constructor
    · intro m hm
      rw [firstBad_bad c rest _ h1 hb] at hm
      obtain rfl := Option.some.inj hm
      exact Or.inl hp
    · intro hm
      rw [firstBad_bad c rest _ h1 hb] at hm
      cases hm
  | case6 ep rest h1 h2 h3 =>
    have hb : badMsg '#' =
        some "array access character not allowed in path" := rfl
    have hp : parseEsc f ep ('#' :: rest) =
        .error "array access character not allowed in path" := by
      rw [parseEsc.eq_def]
      dsimp only
      rw [if_neg (by decide), if_neg (by decide), if_neg (by decide),
        if_pos (by decide)]
    constructor
    · intro m hm
      rw [firstBad_bad '#' rest _ (by decide) hb] at hm
      obtain rfl := Option.some.inj hm
      exact Or.inl hp
    · intro hm
      rw [firstBad_bad '#' rest _ (by decide) hb] at hm
      cases hm
  | case7 ep c rest h1 h2 h3 h4 ih =>
    have hb : badMsg c = none := by
      unfold badMsg
      rw [if_neg h3, if_neg h4]
    have hstep : parseEsc f ep (c :: rest) = parseEsc f (ep ++ [c]) rest := by
      rw [parseEsc.eq_def]
      dsimp only
      rw [if_neg h1, if_neg h2, if_neg h3, if_neg h4]
    constructor
    · intro m hm
      rw [firstBad_good c rest h1 hb] at hm
      rw [hstep]
      exact ih.1 m hm
    · intro hm
      rw [firstBad_good c rest h1 hb] at hm
      rw [hstep]
      exact ih.2 hm

/-- The plain-mode loop against the whole-path scan, mirroring
`parseEsc_scan`. -/
theorem parsePlain_scan (f : Bool) (acc l : Str) :
    (∀ m, firstBad l = some m →
      parsePlain f acc l = .error m ∨
      ∃ r, parsePlain f acc l = .ok r ∧ r.more = true ∧
        firstBad r.path = some m) ∧
    (firstBad l = none → ∃ r, parsePlain f acc l = .ok r ∧
      (r.more = true → firstBad r.path = none)) := by
  induction acc, l using parsePlain.induct f with
  | case1 acc =>
    constructor
    · intro m hm
      simp [firstBad] at hm
    · intro _
      exact ⟨_, rfl, fun _ => rfl⟩
  | case2 acc rest =>
    have hp : parsePlain f acc ('.' :: rest) =
        .ok { part := acc, path := rest, force := f, more := true } := by
      rw [parsePlain.eq_def]
      dsimp only
      rw [if_pos (by decide)]
    constructor
    · intro m hm
      rw [firstBad_good '.' rest (by decide) rfl] at hm
      exact Or.inr ⟨{ part := acc, path := rest, force := f, more := true },
        hp, rfl, hm⟩
    · intro hm
      rw [firstBad_good '.' rest (by decide) rfl] at hm
      exact ⟨{ part := acc, path := rest, force := f, more := true }, hp,
        fun _ => hm⟩
  | case3 acc c rest h1 h2 =>
    have hcb : ¬c = '\\' := by
      rcases h2 with h | h <;> subst h <;> decide
    have hb : badMsg c = some "wildcard characters not allowed in path" := by
      rcases h2 with h | h <;> subst h <;> rfl
    have hp : parsePlain f acc (c :: rest) =
        .error "wildcard characters not allowed in path" := by
      rw [parsePlain.eq_def]
      dsimp only
      rw [if_neg h1, if_pos h2]
    constructor
    · intro m hm
      rw [firstBad_bad c rest _ hcb hb] at hm
      obtain rfl := Option.some.inj hm
      exact Or.inl hp
    · intro hm
      rw [firstBad_bad c rest _ hcb hb] at hm
      cases hm
  | case4 acc rest h1 h2 =>
    have hb : badMsg '#' =
        some "array access character not allowed in path" := rfl
    have hp : parsePlain f acc ('#' :: rest) =
        .error "array access character not allowed in path" := by
      rw [parsePlain.eq_def]
      dsimp only
      rw [if_neg (by decide), if_neg (by decide), if_pos (by decide)]
    constructor
    · intro m hm
      rw [firstBad_bad '#' rest _ (by decide) hb] at hm
      obtain rfl := Option.some.inj hm
      exact Or.inl hp
    · intro hm
      rw [firstBad_bad '#' rest _ (by decide) hb] at hm
      cases hm
  | case5 acc h1 h2 h3 =>
    have hp : parsePlain f acc ['\\'] =
        .ok { part := acc, path := [], force := f, more := false } := by
      rw [parsePlain.eq_def]
      dsimp only
      rw [if_neg (by decide), if_neg (by decide), if_neg (by decide),
        if_pos (by decide)]
    constructor
    · intro m hm
      rw [firstBad_esc_nil] at hm
      cases hm
    · intro _
      exact ⟨{ part := acc, path := [], force := f, more := false }, hp,
        fun _ => rfl⟩
  | case6 acc d rest2 h1 h2 h3 =>
    have hstep : parsePlain f acc ('\\' :: d :: rest2) =
        parseEsc f (acc ++ [d]) rest2 := by
      rw [parsePlain.eq_def]
      dsimp only
      rw [if_neg (by decide), if_neg (by decide), if_neg (by decide),
        if_pos (by decide)]
    constructor
    · intro m hm
      rw [firstBad_esc] at hm
      rw [hstep]
      exact (parseEsc_scan f (acc ++ [d]) rest2).1 m hm
    · intro hm
      rw [firstBad_esc] at hm
      rw [hstep]
      exact (parseEsc_scan f (acc ++ [d]) rest2).2 hm
  | case7 acc c rest h1 h2 h3 h4 ih =>
    have hb : badMsg c = none := by
      unfold badMsg
      rw [if_neg h2, if_neg h3]
    have hstep : parsePlain f acc (c :: rest) =
        parsePlain f (acc ++ [c]) rest := by
      rw [parsePlain.eq_def]
      dsimp only
      rw [if_neg h1, if_neg h2, if_neg h3, if_neg h4]
    constructor
    · intro m hm
      rw [firstBad_good c rest h4 hb] at hm
      rw [hstep]
      exact ih.1 m hm
    · intro hm
      rw [firstBad_good c rest h4 hb] at hm
      rw [hstep]
      exact ih.2 hm

/-- `parsePath` against the whole-path scan: the leading `:` is neither
reserved nor an escape, so the scan passes straight through it. -/
theorem parsePath_scan (path : Str) :
    (∀ m, firstBad path = some m →
      parsePath path = .error m ∨
      ∃ r, parsePath path = .ok r ∧ r.more = true ∧
        firstBad r.path = some m) ∧
    (firstBad path = none → ∃ r, parsePath path = .ok r ∧
      (r.more = true → firstBad r.path = none)) := by
  unfold parsePath
  split
  · next rest =>
    have hfb : firstBad (':' :: rest) = firstBad rest :=
      firstBad_good ':' rest (by decide) rfl
    constructor
    · intro m hm
      rw [hfb] at hm
      exact (parsePlain_scan true [] rest).1 m hm
    · intro hm
      rw [hfb] at hm
      exact (parsePlain_scan true [] rest).2 hm
  · exact parsePlain_scan false [] path

/-- The segment loop reports the first unescaped reserved character's
message, and parses cleanly when there is none. -/
theorem parseAllF_scan : ∀ (fuel : Nat) (path : Str), path.length < fuel →
    (∀ m, firstBad path = some m →
      parseAllF fuel path = some (.error m)) ∧
    (firstBad path = none →
      ∃ segs, parseAllF fuel path = some (.ok segs)) := by
  intro fuel
  induction fuel with
  | zero =>
    intro path h
    omega
  | succ g ih =>
    intro path hf
    constructor
    · intro m hm
      rcases (parsePath_scan path).1 m hm with herr | ⟨r, hok, hmore, hnext⟩
      · simp [parseAllF, herr]
      · have hlt := parsePath_more_lt path r hok hmore
        have hrec := (ih r.path (by omega)).1 m hnext
        simp [parseAllF, hok, hmore, hrec]
    · intro hm
      rcases (parsePath_scan path).2 hm with ⟨r, hok, hmore⟩
      by_cases hmr : r.more
      · have hlt := parsePath_more_lt path r hok hmr
        rcases (ih r.path (by omega)).2 (hmore hmr) with ⟨segs, hsegs⟩
        exact ⟨r :: segs, by simp [parseAllF, hok, hmr, hsegs]⟩
      · exact ⟨[r], by simp [parseAllF, hok, hmr]⟩

/-- C7: an unescaped `#`, `*` or `?` anywhere in the path makes `set`
fail, before any document byte is read, with the message of that
character's class — array-access for `#`, wildcard for `*` and `?` —
while a path whose reserved characters are all escaped parses without
error, the escape yielding the literal character in the key (third
conjunct: the segment `a\#b` parses to the key `a#b`). -/
theorem claim7_reserved_path_chars (path : Str) :
    (∀ m, firstBad path = some m →
      parseAll path = .error m ∧
      ∀ (jstr raw : Str) (st : Bool), set jstr path raw st = .error m) ∧
    (firstBad path = none → ∃ segs, parseAll path = .ok segs) ∧
    parsePath (s2l "a\\#b") =
      .ok { part := s2l "a#b", path := [], force := false, more := false }
    := by
  refine ⟨?_, ?_, rfl⟩
  · intro m hm
    have hne : path ≠ [] := by
      intro h
      subst h
      simp [firstBad] at hm
    have hp := (parseAllF_scan (path.length + 1) path (by omega)).1 m hm
    have he := parseAllF_eq_parseAll path (path.length + 1) (by omega)
    rw [hp] at he
    have hpa : parseAll path = .error m := (Option.some.inj he).symm
    refine ⟨hpa, ?_⟩
    intro jstr raw st
    unfold set
    rw [if_neg hne, hpa]
  · intro hm
    rcases (parseAllF_scan (path.length + 1) path (by omega)).2 hm with
      ⟨segs, hs⟩
    have he := parseAllF_eq_parseAll path (path.length + 1) (by omega)
    rw [hs] at he
    exact ⟨segs, (Option.some.inj he).symm⟩

/-- Witness for C7: a `#` after a dot fails with the array-access
message through `parseAll`, and a `*` fails `set` itself with the
wildcard message, independent of the document. -/
theorem claim7_reserved_path_chars_witness :
    parseAll (s2l "a.b#c") =
      .error "array access character not allowed in path" ∧
    set (s2l "\x7b\x7d") (s2l "x*y") (s2l "1") false =
      .error "wildcard characters not allowed in path" := by
  constructor
  · exact ((claim7_reserved_path_chars (s2l "a.b#c")).1
      "array access character not allowed in path" rfl).1
  · exact ((claim7_reserved_path_chars (s2l "x*y")).1
      "wildcard characters not allowed in path" rfl).2
      (s2l "\x7b\x7d") (s2l "1") false

end SJson
